import Mathlib

/-!
Verification development for the folder scanner (`main.py`).

The program's core is embedded shallowly:

* Python strings are modelled as `List Char` (`PyStr`); Python `len` counts
  code points, exactly as `List.length` does here.
* The filesystem is an inductive tree `FSNode`; a directory carries a
  `denied` flag meaning that listing it raises `PermissionError`.
* Fallible operations (reading a file as text, parsing a `.docx` document)
  are inputs of type `Except PyErr _`: an `Except.error` models the Python
  call raising an exception.
* The text files read by the program are read in text mode with universal
  newlines, so line boundaries are exactly `'\n'` characters here.
-/

set_option linter.unusedVariables false

abbrev PyStr := List Char

/-- Python `str.strip()`: drop whitespace from both ends of the string. -/
def pyStrip (s : PyStr) : PyStr :=
  ((s.dropWhile Char.isWhitespace).reverse.dropWhile Char.isWhitespace).reverse

/-- Python `str.lower()`, per character (the extensions this program compares
are ASCII, where per-character lowering agrees with Python). -/
def pyLower (s : PyStr) : PyStr := s.map Char.toLower

/-- The suffix of a file name, following `pathlib.PurePath.suffix`:
`i = name.rfind('.'); name[i:] if 0 < i < len(name) - 1 else ''`.
Working from the reversed name, the last `'.'` is at reversed index `j`,
and the condition `0 < i < len(name) - 1` becomes `0 < j < len(name) - 1`. -/
def pySuffix (name : PyStr) : PyStr :=
  let rev := name.reverse
  match rev.findIdx? (· = '.') with
  | none => []
  | some j => if 0 < j ∧ j < name.length - 1 then '.' :: (rev.take j).reverse else []

/-- Python `f.readlines()` on a text-mode file whose translated content is
`s`: split after each `'\n'`, keeping the newline in each line; a final
segment without a newline is kept too, and the empty string gives `[]`. -/
def readlines : PyStr → List PyStr
  | [] => []
  | c :: rest =>
    if c = '\n' then ['\n'] :: readlines rest
    else
      match readlines rest with
      | [] => [[c]]
      | l :: ls => (c :: l) :: ls

/-- Remove one trailing `'\n'` if present. -/
def stripNL (l : PyStr) : PyStr := if l.getLast? = some '\n' then l.dropLast else l

/-- Python `str.splitlines()` for content whose line boundaries are `'\n'`. -/
def splitlines (s : PyStr) : List PyStr := (readlines s).map stripNL

/-- Number of lines of a string, in the `splitlines` sense. -/
def countLines (s : PyStr) : Nat := (splitlines s).length

/-- Python string `<`: lexicographic comparison by code point. -/
def pyStrLt : PyStr → PyStr → Bool
  | [], [] => false
  | [], _ :: _ => true
  | _ :: _, [] => false
  | a :: as, b :: bs => if a < b then true else if b < a then false else pyStrLt as bs

/-- The ordering a Python stable sort establishes: `a` may precede `b`
exactly when `¬ (b < a)`. -/
def pyStrLe (a b : PyStr) : Prop := pyStrLt b a = false

instance : DecidableRel pyStrLe := fun a b => by
  unfold pyStrLe; infer_instance

theorem pyStrLt_asymm : ∀ {a b : PyStr}, pyStrLt a b = true → pyStrLt b a = false
  | [], [], h => by simp [pyStrLt] at h
  | [], _ :: _, _ => by simp [pyStrLt]
  | _ :: _, [], h => by simp [pyStrLt] at h
  | a :: as, b :: bs, h => by
    simp only [pyStrLt] at h ⊢
    by_cases hab : a < b
    · have hba : ¬ b < a := lt_asymm hab
      simp [hab, hba]
    · by_cases hba : b < a
      · simp [hab, hba] at h
      · simpa [hab, hba] using pyStrLt_asymm (by simpa [hab, hba] using h)

theorem pyStrLt_trans : ∀ {a b c : PyStr}, pyStrLt a b = true → pyStrLt b c = true →
    pyStrLt a c = true
  | [], [], _, h1, _ => by simp [pyStrLt] at h1
  | [], _ :: _, [], _, h2 => by simp [pyStrLt] at h2
  | [], _ :: _, _ :: _, _, _ => by simp [pyStrLt]
  | _ :: _, [], _, h1, _ => by simp [pyStrLt] at h1
  | _ :: _, _ :: _, [], _, h2 => by simp [pyStrLt] at h2
  | a :: as, b :: bs, c :: cs, h1, h2 => by
    simp only [pyStrLt] at h1 h2 ⊢
    rcases lt_trichotomy a b with hab | hab | hab
    · rcases lt_trichotomy b c with hbc | hbc | hbc
      · simp [lt_trans hab hbc]
      · subst hbc; simp [hab]
      · simp [lt_asymm hbc, hbc] at h2
    · subst hab
      have h1' : pyStrLt as bs = true := by simpa [lt_irrefl] using h1
      rcases lt_trichotomy a c with hac | hac | hac
      · simp [hac]
      · subst hac
        have h2' : pyStrLt bs cs = true := by simpa [lt_irrefl] using h2
        simpa [lt_irrefl] using pyStrLt_trans h1' h2'
      · simp [lt_asymm hac, hac] at h2
    · simp [lt_asymm hab, hab] at h1

theorem pyStrLt_eq_of_not_lt : ∀ {a b : PyStr}, pyStrLt a b = false → pyStrLt b a = false →
    a = b
  | [], [], _, _ => rfl
  | [], _ :: _, h1, _ => by simp [pyStrLt] at h1
  | _ :: _, [], _, h2 => by simp [pyStrLt] at h2
  | a :: as, b :: bs, h1, h2 => by
    simp only [pyStrLt] at h1 h2
    by_cases hab : a < b
    · simp [hab] at h1
    · by_cases hba : b < a
      · simp [hab, hba] at h2
      · have hab' : a = b := le_antisymm (not_lt.mp hba) (not_lt.mp hab)
        subst hab'
        have h1' := by simpa [hab] using h1
        have h2' := by simpa [hab] using h2
        rw [pyStrLt_eq_of_not_lt h1' h2']

instance : IsTotal PyStr pyStrLe := by
  constructor
  intro a b
  unfold pyStrLe
  cases h : pyStrLt b a
  · exact Or.inl rfl
  · exact Or.inr (pyStrLt_asymm h)

instance : IsTrans PyStr pyStrLe := by
  constructor
  intro a b c h1 h2
  unfold pyStrLe at h1 h2 ⊢
  cases hca : pyStrLt c a
  · rfl
  · exfalso
    cases hab : pyStrLt a b
    · have hab' : a = b := pyStrLt_eq_of_not_lt hab h1
      subst hab'
      rw [hca] at h2
      exact Bool.noConfusion h2
    · have hcb : pyStrLt c b = true := pyStrLt_trans hca hab
      rw [hcb] at h2
      exact Bool.noConfusion h2

/-! Configuration constants of the script. -/

/-- Folder names excluded from both traversal and rendering (case-sensitive). -/
def EXCLUDE_FOLDERS : List PyStr :=
  ["to_exclude".toList, ".git".toList, "__pycache__".toList, "node_modules".toList,
   "backups".toList, "temp".toList, "libs".toList]

def MAX_CONTENT_PREVIEW_LINES : Nat := 50

def MAX_CONTENT_PREVIEW_CHARS : Nat := 2000

/-- The truncation marker the script appends to a truncated preview. -/
def truncMarker : PyStr := "\n... (content truncated)".toList

/-! The content extractor (`get_file_title_and_content`). -/

/-- A Python exception, as observed by the handler: `type(e).__name__` and
`str(e)`. -/
structure PyErr where
  kind : PyStr
  detail : PyStr
deriving DecidableEq

/-- A `python-docx` paragraph: optional style name (`none` covers both
`para.style is None` and `para.style.name is None`) and the paragraph text. -/
structure Para where
  styleName : Option PyStr
  text : PyStr
deriving DecidableEq

instance {ε α : Type} [DecidableEq ε] [DecidableEq α] : DecidableEq (Except ε α) := fun x y =>
  match x, y with
  | .ok a, .ok b =>
    if h : a = b then isTrue (by rw [h]) else isFalse (by intro hc; cases hc; exact h rfl)
  | .error a, .error b =>
    if h : a = b then isTrue (by rw [h]) else isFalse (by intro hc; cases hc; exact h rfl)
  | .ok _, .error _ => isFalse (by intro hc; cases hc)
  | .error _, .ok _ => isFalse (by intro hc; cases hc)

/-- One file handed to the extractor: its final path component (the code only
uses `path_obj.name` and `path_obj.suffix`), the outcome of opening and
reading it as text (shared by the `.txt` branch and the unknown-extension
fallback, which perform the identical read), and the outcome of parsing it
with `python-docx`. -/
structure FileInput where
  name : PyStr
  readResult : Except PyErr PyStr
  docxResult : Except PyErr (List Para)
deriving DecidableEq

/-- The extractor's return triple `(title, content_preview, content_notes)`. -/
structure ExtractResult where
  title : Option PyStr
  content_preview : PyStr
  content_notes : PyStr
deriving DecidableEq

/-- Cap a title at `cap` characters, appending `"..."` when it was longer:
`if len(t) > cap: t = t[:cap] + "..."`. -/
def capTitle (cap : Nat) (s : PyStr) : PyStr :=
  if s.length > cap then s.take cap ++ "...".toList else s

/-- The preview computation shared verbatim by the `.txt` branch and the
unknown-extension fallback (lines 88-93 and 140-145 of `main.py`):
character cap first, then line cap, else the full content. -/
def previewFromLines (lines : List PyStr) : PyStr :=
  if lines.flatten.length > MAX_CONTENT_PREVIEW_CHARS then
    lines.flatten.take MAX_CONTENT_PREVIEW_CHARS ++ truncMarker
  else if lines.length > MAX_CONTENT_PREVIEW_LINES then
    (lines.take MAX_CONTENT_PREVIEW_LINES).flatten ++ truncMarker
  else lines.flatten

/-- The `.txt` branch, after a successful read of content `content`. -/
def txtExtract (content : PyStr) : ExtractResult :=
  let lines := readlines content
  if lines.isEmpty then
    ⟨none, [], "[Empty text file]".toList⟩
  else
    ⟨(lines.find? fun l => !(pyStrip l).isEmpty).map fun l => capTitle 200 (pyStrip l),
     previewFromLines lines, []⟩

/-- Test from the `.docx` branch: `para.style and para.style.name and
para.style.name.lower().startswith('heading')` together with
`para.text.strip()` being truthy (an empty style name is falsy in Python). -/
def isHeadingPara (p : Para) : Bool :=
  match p.styleName with
  | none => false
  | some st => !st.isEmpty && "heading".toList.isPrefixOf (pyLower st) && !(pyStrip p.text).isEmpty

/-- The stripped texts of the heading paragraphs, in order. -/
def headingTitles (paras : List Para) : List PyStr :=
  (paras.filter isHeadingPara).map fun p => pyStrip p.text

/-- `"\n".join(para.text for para in doc.paragraphs)`. -/
def docxFullText (paras : List Para) : PyStr :=
  List.intercalate ['\n'] (paras.map Para.text)

/-- Title heuristic of the `.docx` branch: up to three heading texts joined
with `"; "` and capped at 200 characters, else the first non-blank
paragraph's stripped text capped at 150 characters, else no title. -/
def docxTitle (paras : List Para) : Option PyStr :=
  let ts := headingTitles paras
  if !ts.isEmpty then some (capTitle 200 (List.intercalate "; ".toList (ts.take 3)))
  else
    match paras.find? fun p => !(pyStrip p.text).isEmpty with
    | some p =>
      let cand := pyStrip p.text
      some (if cand.length > 150 then cand.take 150 ++ "...".toList else cand)
    | none => none

/-- Preview of the `.docx` branch: the same dual cap as the text branches,
but the line cap counts `full_text.splitlines()` and rejoins with `"\n"`. -/
def docxPreview (paras : List Para) : PyStr :=
  if (docxFullText paras).length > MAX_CONTENT_PREVIEW_CHARS then
    (docxFullText paras).take MAX_CONTENT_PREVIEW_CHARS ++ truncMarker
  else if (splitlines (docxFullText paras)).length > MAX_CONTENT_PREVIEW_LINES then
    List.intercalate ['\n']
      ((splitlines (docxFullText paras)).take MAX_CONTENT_PREVIEW_LINES) ++ truncMarker
  else docxFullText paras

/-- The `.docx` branch after a successful parse. A set title is never the
empty string, so Python's `not title` is `title.isNone` here. -/
def docxExtract (paras : List Para) : ExtractResult :=
  let title := docxTitle paras
  let preview := docxPreview paras
  let notes :=
    if (pyStrip preview).isEmpty && title.isNone then
      "[DOCX appears empty or has no extractable text/headings]".toList
    else if (pyStrip preview).isEmpty && !title.isNone then
      "[DOCX has headings but no other significant body text found for preview]".toList
    else []
  ⟨title, preview, notes⟩

def notImplementedExts : List PyStr :=
  [".pdf", ".xlsx", ".xls", ".ppt", ".pptx"].map String.toList

def binaryExts : List PyStr :=
  [".jpg", ".jpeg", ".png", ".gif", ".bmp", ".tiff", ".svg", ".exe", ".dll", ".app",
   ".bin", ".zip", ".gz", ".tar", ".rar", ".7z", ".mp3", ".wav", ".aac", ".flac",
   ".mp4", ".avi", ".mov", ".mkv", ".webm", ".lnk", ".url"].map String.toList

/-- The final `else` branch of the dispatch: attempt a permissive text read;
its own `try`/`except` catches a failing read locally. -/
def unknownFallback (extension : PyStr) (readResult : Except PyErr PyStr) : ExtractResult :=
  match readResult with
  | .error _ =>
    ⟨none, [],
     "[Unknown file type (".toList ++ extension ++ "), likely binary or not text-readable]".toList⟩
  | .ok content =>
    let lines := readlines content
    if lines.isEmpty then
      ⟨none, [],
       "[Unknown file type (".toList ++ extension ++ "), appears empty or unreadable as text]".toList⟩
    else
      let preview := previewFromLines lines
      if !(pyStrip preview).isEmpty then
        ⟨none, preview,
         "[Attempted text extraction for unknown type ".toList ++ extension ++ "]".toList⟩
      else
        ⟨none, preview,
         "[Unknown file type (".toList ++ extension ++ "), appears empty or unreadable as text]".toList⟩

/-- The outer `except Exception` handler: notes set to the error string,
preview emptied, title cleared. -/
def errorResult (name : PyStr) (e : PyErr) : ExtractResult :=
  ⟨none, [],
   "[ERROR processing file ".toList ++ name ++ ": ".toList ++ e.kind ++ " - ".toList
     ++ e.detail ++ "]".toList⟩

/-- `get_file_title_and_content`, dispatching on the lowercased suffix.
`docAvailable` is whether the startup `from docx import Document` succeeded
(checked once at import time; `Document is None` afterwards). The two
fallible calls (`open`/`readlines` in the `.txt` branch, `Document(...)` in
the `.docx` branch) surface as the `Except.error` cases, which land in the
outer handler; the function itself is total, so it never raises. -/
def get_file_title_and_content (f : FileInput) (docAvailable : Bool) : ExtractResult :=
  let extension := pyLower (pySuffix f.name)
  if extension = ".txt".toList then
    match f.readResult with
    | .error e => errorResult f.name e
    | .ok content => txtExtract content
  else if extension = ".docx".toList ∧ docAvailable = true then
    match f.docxResult with
    | .error e => errorResult f.name e
    | .ok paras => docxExtract paras
  else if notImplementedExts.contains extension then
    ⟨none, [],
     "[Content extraction for ".toList ++ extension
       ++ " not yet implemented, but file is present.]".toList⟩
  else if binaryExts.contains extension then
    ⟨none, [],
     "[Binary, media, archive, or shortcut file (".toList ++ extension
       ++ "). Content not displayed.]".toList⟩
  else unknownFallback extension f.readResult

/-! The filesystem model, the tree renderer (`_tree_generator`) and the file
collector (`scan_folder_and_collect_files`). -/

/-- A filesystem entry. `denied` on a directory means that listing its
children (`iterdir` / `scandir`) raises `PermissionError`. -/
inductive FSNode where
  | file (name : PyStr)
  | dir (name : PyStr) (denied : Bool) (children : List FSNode)

def nodeName : FSNode → PyStr
  | .file n => n
  | .dir n _ _ => n

def isFileNode : FSNode → Bool
  | .file _ => true
  | .dir _ _ _ => false

def isDirNode : FSNode → Bool
  | .file _ => false
  | .dir _ _ _ => true

/-- A subdirectory that survives the renderer's exclusion filter. -/
def includedDir (c : FSNode) : Bool :=
  isDirNode c && !(EXCLUDE_FOLDERS.contains (nodeName c))

/-- Sibling ordering used by `sorted(...)` on `Path` objects: `Path.__lt__`
compares the full path strings, which between children of one directory is
code-point comparison of the names. -/
def nodeLe (x y : FSNode) : Prop := pyStrLe (nodeName x) (nodeName y)

instance : DecidableRel nodeLe := fun x y => by
  unfold nodeLe; infer_instance

instance : IsTotal FSNode nodeLe := by
  constructor
  intro a b
  exact IsTotal.total (r := pyStrLe) (nodeName a) (nodeName b)

instance : IsTrans FSNode nodeLe := by
  constructor
  intro a b c h1 h2
  exact IsTrans.trans (r := pyStrLe) _ _ _ h1 h2

/-- The items listing of `_tree_generator`:
`sorted([d for d in iterdir if d.is_dir() and d.name not in EXCLUDE_FOLDERS]
        + [f for f in iterdir if f.is_file()])`.
Python's `sorted` is the stable sort by `Path.__lt__`; `insertionSort` with
the matching `le` computes exactly that stable sort. -/
def treeItems (cs : List FSNode) : List FSNode :=
  List.insertionSort nodeLe (cs.filter includedDir ++ cs.filter isFileNode)

mutual

def nodeSize : FSNode → Nat
  | .file _ => 1
  | .dir _ _ cs => 1 + listSize cs

def listSize : List FSNode → Nat
  | [] => 0
  | c :: cs => nodeSize c + listSize cs

end

theorem listSize_nil : listSize [] = 0 := rfl

theorem listSize_cons (c : FSNode) (l : List FSNode) :
    listSize (c :: l) = nodeSize c + listSize l := rfl

theorem nodeSize_file (n : PyStr) : nodeSize (.file n) = 1 := rfl

theorem nodeSize_dir (n : PyStr) (dn : Bool) (cs : List FSNode) :
    nodeSize (.dir n dn cs) = 1 + listSize cs := rfl

theorem nodeSize_pos : ∀ c : FSNode, 1 ≤ nodeSize c
  | .file _ => le_refl 1
  | .dir _ _ _ => Nat.le_add_right 1 _

theorem listSize_append (l1 l2 : List FSNode) :
    listSize (l1 ++ l2) = listSize l1 + listSize l2 := by
  induction l1 with
  | nil => rw [List.nil_append, listSize_nil]; omega
  | cons c l ih =>
    rw [List.cons_append, listSize_cons, listSize_cons, ih]
    omega

theorem listSize_eq_sum (l : List FSNode) : listSize l = (l.map nodeSize).sum := by
  induction l with
  | nil => rfl
  | cons c l ih => rw [listSize_cons, List.map_cons, List.sum_cons, ih]

theorem listSize_perm {l1 l2 : List FSNode} (h : l1.Perm l2) : listSize l1 = listSize l2 := by
  rw [listSize_eq_sum, listSize_eq_sum]
  exact (h.map nodeSize).sum_eq

theorem listSize_filters_le (cs : List FSNode) :
    listSize (cs.filter includedDir) + listSize (cs.filter isFileNode) ≤ listSize cs := by
  induction cs with
  | nil => simp [List.filter_nil, listSize_nil]
  | cons c rest ih =>
    cases c with
    | file n =>
      have h1 : includedDir (FSNode.file n) = false := rfl
      have h2 : isFileNode (FSNode.file n) = true := rfl
      simp only [List.filter_cons, h1, h2, Bool.false_eq_true, if_false, if_true,
        listSize_cons, nodeSize_file]
      omega
    | dir n dn ccs =>
      have h2 : isFileNode (FSNode.dir n dn ccs) = false := rfl
      cases hx : includedDir (FSNode.dir n dn ccs) with
      | true =>
        simp only [List.filter_cons, hx, h2, Bool.false_eq_true, if_false, if_true,
          listSize_cons, nodeSize_dir]
        omega
      | false =>
        simp only [List.filter_cons, hx, h2, Bool.false_eq_true, if_false,
          listSize_cons, nodeSize_dir]
        omega

theorem listSize_treeItems_le (cs : List FSNode) : listSize (treeItems cs) ≤ listSize cs := by
  unfold treeItems
  rw [listSize_perm (List.perm_insertionSort nodeLe _), listSize_append]
  exact listSize_filters_le cs

theorem listSize_lt_of_dir_mem : ∀ {cs : List FSNode} {n dn ccs},
    FSNode.dir n dn ccs ∈ cs → listSize ccs < listSize cs := by
  intro cs
  induction cs with
  | nil => intro n dn ccs h; cases h
  | cons c rest ih =>
    intro n dn ccs h
    rcases List.mem_cons.mp h with h | h
    · subst h
      simp only [listSize, nodeSize]
      omega
    · have := ih h
      have h1 := nodeSize_pos c
      simp only [listSize]
      omega

/-- Connector for a non-final sibling. -/
def branchConn : PyStr := "├── ".toList

/-- Connector for the final sibling at a level. -/
def lastConn : PyStr := "└── ".toList

/-- The single line written when listing a directory raises
`PermissionError` (the line also carries the running indentation). -/
def deniedLine : PyStr := "└── [Error: Permission Denied]".toList

mutual

/-- The body of `_tree_generator`'s `for i, item in enumerate(items)` loop:
the items are already the sorted listing of one directory, and the last item
gets the `└── ` connector. Each produced `PyStr` is one written line (the
trailing `"\n"` of each `write` is left implicit). -/
def genItems : List FSNode → PyStr → List PyStr
  | [], _ => []
  | [x], pfx => renderOne x true pfx
  | x :: y :: rest, pfx => renderOne x false pfx ++ genItems (y :: rest) pfx
termination_by l _ => (listSize l, 1)
decreasing_by
all_goals
  first
  | (apply Prod.Lex.left
     simp only [listSize_cons, listSize_nil]
     first
     | (have h1 := nodeSize_pos x; have h2 := nodeSize_pos y; omega)
     | (have h1 := nodeSize_pos x; omega))
  | exact Prod.Lex.right _ (by omega)

/-- Lines written for one item: a file yields one line; a directory yields
its own line (name plus `"/"`) followed by its recursively rendered
subtree, indented with `"    "` after a last item and `"│   "` otherwise. -/
def renderOne : FSNode → Bool → PyStr → List PyStr
  | .file n, last, pfx => [pfx ++ (if last then lastConn else branchConn) ++ n]
  | .dir n dn ccs, last, pfx =>
    (pfx ++ (if last then lastConn else branchConn) ++ n ++ ['/']) ::
      subTree dn ccs (pfx ++ (if last then "    ".toList else "│   ".toList))
termination_by x _ _ => (nodeSize x, 0)
decreasing_by
all_goals
  apply Prod.Lex.left
  simp only [nodeSize_dir]
  omega

/-- The recursive call `_tree_generator(item, new_prefix)` on a directory
whose `denied` flag and children are given: a denied listing produces the
single permission-denied line; otherwise the sorted items are rendered. -/
def subTree : Bool → List FSNode → PyStr → List PyStr
  | true, _, pfx => [pfx ++ deniedLine]
  | false, ccs, pfx => genItems (treeItems ccs) pfx
termination_by dn ccs _ => (listSize ccs, 2)
decreasing_by
all_goals
  rcases Nat.lt_or_ge (listSize (treeItems ccs)) (listSize ccs) with h | h
  · exact Prod.Lex.left _ _ h
  · rw [le_antisymm (listSize_treeItems_le ccs) h]
    exact Prod.Lex.right _ (by omega)

end

/-- `_tree_generator(directory, prefix)` on a directory node. -/
def tree_generator (d : FSNode) (pfx : PyStr) : List PyStr :=
  match d with
  | .file _ => []
  | .dir _ dn cs => subTree dn cs pfx

/-- `str(Path(p) / n)` for a relative child: POSIX separator. -/
def childPath (p n : PyStr) : PyStr := p ++ '/' :: n

/-- The file paths contributed by one `os.walk` tuple for the directory at
path `p` with listing `cs`. -/
def filesAt (p : PyStr) (cs : List FSNode) : List PyStr :=
  cs.filterMap fun c =>
    match c with
    | .file n => some (childPath p n)
    | .dir _ _ _ => none

mutual

/-- `os.walk` output below a readable directory at path `p` with listing
`cs`: the files of this directory first, then the recursive walks of its
subdirectories in listing order, after the in-place pruning
`dirs[:] = [d for d in dirs if d not in EXCLUDE_FOLDERS]`. -/
def walkChildren (p : PyStr) (cs : List FSNode) : List PyStr :=
  filesAt p cs ++ dirWalks p cs
termination_by (listSize cs, 1)
decreasing_by
all_goals exact Prod.Lex.right _ (by omega)

/-- Walks into the subdirectories among `cs`, skipping excluded names; a
denied subdirectory contributes nothing (`os.walk` with `onerror=None`
silently skips a directory it cannot list). -/
def dirWalks (p : PyStr) : List FSNode → List PyStr
  | [] => []
  | .file _ :: rest => dirWalks p rest
  | .dir n dn ccs :: rest =>
    (if EXCLUDE_FOLDERS.contains n then []
     else if dn then [] else walkChildren (childPath p n) ccs) ++ dirWalks p rest
termination_by l => (listSize l, 0)
decreasing_by
all_goals
  apply Prod.Lex.left
  simp only [listSize_cons, nodeSize_file, nodeSize_dir]
  omega

end

/-- `scan_folder_and_collect_files` on a validated root: the root path
exists and is a readable directory whose listing is `cs` (otherwise the
script exits before collecting). The collected paths are sorted with
Python's `list.sort()`. -/
def scan_folder_and_collect_files (rootPath : PyStr) (cs : List FSNode) : List PyStr :=
  List.insertionSort pyStrLe (walkChildren rootPath cs)

mutual

/-- All files below a node, with the directory-name components leading to
each file (no exclusion applied): the reference enumeration the collector is
measured against. -/
def nodeEntries : FSNode → List (List PyStr × PyStr)
  | .file n => [([], n)]
  | .dir n _ ccs => (listEntries ccs).map fun e => (n :: e.1, e.2)

def listEntries : List FSNode → List (List PyStr × PyStr)
  | [] => []
  | c :: rest => nodeEntries c ++ listEntries rest

end

/-- The full path of a file under `root` through directory components `ds`. -/
def mkPath (root : PyStr) (ds : List PyStr) (f : PyStr) : PyStr :=
  childPath (ds.foldl childPath root) f

mutual

/-- No directory anywhere below this node is permission-denied. -/
def accessibleNode : FSNode → Bool
  | .file _ => true
  | .dir _ dn ccs => !dn && accessibleList ccs

/-- No directory anywhere below is permission-denied. -/
def accessibleList : List FSNode → Bool
  | [] => true
  | c :: rest => accessibleNode c && accessibleList rest

end

/-- Modelled from the spec's claimed ordering, for comparison with
`treeItems`: non-excluded subdirectories sorted by name first, then files
sorted by name, as two independently sorted groups. -/
def dirsFirstItems (cs : List FSNode) : List FSNode :=
  List.insertionSort nodeLe (cs.filter includedDir)
    ++ List.insertionSort nodeLe (cs.filter isFileNode)

/-! Helper lemmas about `readlines`, `splitlines` and the previews. -/

theorem readlines_flatten (s : PyStr) : (readlines s).flatten = s := by
  induction s with
  | nil => rfl
  | cons c rest ih =>
    by_cases hc : c = '\n'
    · subst hc
      rw [show readlines ('\n' :: rest) = ['\n'] :: readlines rest from by simp [readlines]]
      simp [ih]
    · rcases h : readlines rest with _ | ⟨l, ls⟩
      · have hrest : rest = [] := by
          have h2 := ih
          rw [h] at h2
          simpa using h2.symm
        subst hrest
        simp [readlines, hc]
      · have hr : readlines (c :: rest) = (c :: l) :: ls := by
          simp [readlines, hc, h]
        rw [hr]
        rw [h] at ih
        simp only [List.flatten_cons] at ih ⊢
        rw [List.cons_append, ih]

/-- A string with no newline character. -/
def noNL (l : PyStr) : Bool := l.all fun c => c != '\n'

/-- A complete line: nonempty, ends with `'\n'`, no interior `'\n'`. These
are exactly the non-final elements `readlines` produces. -/
def isNLLine : PyStr → Bool
  | [] => false
  | [c] => decide (c = '\n')
  | c :: d :: rest => (c != '\n') && isNLLine (d :: rest)

theorem readlines_cons_of_ne {c : Char} (hc : ¬ c = '\n') {rest l : PyStr} {ls : List PyStr}
    (h : readlines rest = l :: ls) : readlines (c :: rest) = (c :: l) :: ls := by
  simp [readlines, hc, h]

theorem readlines_append_of_isNLLine : ∀ {l : PyStr}, isNLLine l = true →
    ∀ t, readlines (l ++ t) = l :: readlines t
  | [], h, _ => by simp [isNLLine] at h
  | [c], h, t => by
    have hc : c = '\n' := by simpa [isNLLine] using h
    subst hc
    simp [readlines]
  | c :: d :: rest, h, t => by
    have hc : ¬ c = '\n' ∧ isNLLine (d :: rest) = true := by
      simpa [isNLLine, Bool.and_eq_true] using h
    have ih := readlines_append_of_isNLLine hc.2 t
    exact readlines_cons_of_ne hc.1 ih

theorem readlines_flatten_append : ∀ {L : List PyStr}, (∀ l ∈ L, isNLLine l = true) →
    ∀ t, readlines (L.flatten ++ t) = L ++ readlines t
  | [], _, t => by simp
  | l :: L, h, t => by
    rw [List.flatten_cons, List.append_assoc,
      readlines_append_of_isNLLine (h l (List.mem_cons_self l L)) _,
      readlines_flatten_append (fun x hx => h x (List.mem_cons_of_mem l hx)) t]
    rfl

/-- All but the final element satisfy `isNLLine`. -/
def nlShape : List PyStr → Bool
  | [] => true
  | [_] => true
  | l :: d :: rest => isNLLine l && nlShape (d :: rest)

theorem readlines_nlShape (s : PyStr) : nlShape (readlines s) = true := by
  induction s with
  | nil => rfl
  | cons c rest ih =>
    by_cases hc : c = '\n'
    · subst hc
      rw [show readlines ('\n' :: rest) = ['\n'] :: readlines rest from by simp [readlines]]
      rcases h : readlines rest with _ | ⟨l, ls⟩
      · rfl
      · rw [h] at ih
        simp [nlShape, isNLLine, ih]
    · rcases h : readlines rest with _ | ⟨l, ls⟩
      · rw [show readlines (c :: rest) = [[c]] from by simp [readlines, hc, h]]
        rfl
      · rw [show readlines (c :: rest) = (c :: l) :: ls from by simp [readlines, hc, h]]
        rw [h] at ih
        rcases ls with _ | ⟨l2, ls2⟩
        · rfl
        · have h1 : isNLLine l = true ∧ nlShape (l2 :: ls2) = true := by
            simpa [nlShape, Bool.and_eq_true] using ih
          have h2 : isNLLine (c :: l) = true := by
            rcases l with _ | ⟨a, as⟩
            · simp [isNLLine] at h1
            · simp [isNLLine, hc, h1.1]
          simp [nlShape, h2, h1.2]

theorem isNLLine_of_mem_take : ∀ {L : List PyStr} {k : Nat}, nlShape L = true →
    k < L.length → ∀ l ∈ L.take k, isNLLine l = true := by
  intro L
  induction L with
  | nil => intro k _ _ l hl; simp at hl
  | cons x rest ih =>
    intro k hs hk l hl
    rcases k with _ | k
    · simp at hl
    · rcases rest with _ | ⟨d, r⟩
      · simp at hk
      · have hs' : isNLLine x = true ∧ nlShape (d :: r) = true := by
          simpa [nlShape, Bool.and_eq_true] using hs
        rcases List.mem_cons.mp (by simpa [List.take_cons] using hl) with h | h
        · subst h; exact hs'.1
        · exact ih hs'.2 (by simpa using hk) l h

theorem noNL_cons (c : Char) (l : PyStr) : noNL (c :: l) = ((c != '\n') && noNL l) := by
  simp [noNL, List.all_cons]

theorem lineOK_of_mem_readlines : ∀ {s l : PyStr}, l ∈ readlines s →
    (isNLLine l || noNL l) = true ∧ l ≠ [] := by
  intro s
  induction s with
  | nil => intro l hl; simp [readlines] at hl
  | cons c rest ih =>
    intro l hl
    by_cases hc : c = '\n'
    · subst hc
      rw [show readlines ('\n' :: rest) = ['\n'] :: readlines rest from by simp [readlines]] at hl
      rcases List.mem_cons.mp hl with h | h
      · subst h
        exact ⟨by decide, by simp⟩
      · exact ih h
    · rcases h : readlines rest with _ | ⟨x, xs⟩
      · rw [show readlines (c :: rest) = [[c]] from by simp [readlines, hc, h]] at hl
        rcases List.mem_cons.mp hl with h2 | h2
        · subst h2
          refine ⟨?_, by simp⟩
          have : noNL [c] = true := by simp [noNL, hc]
          simp [this]
        · simp at h2
      · rw [readlines_cons_of_ne hc h] at hl
        rcases List.mem_cons.mp hl with h2 | h2
        · subst h2
          have hx : (isNLLine x || noNL x) = true ∧ x ≠ [] := ih (by rw [h]; exact List.mem_cons_self x xs)
          refine ⟨?_, by simp⟩
          rcases Bool.or_eq_true_iff.mp hx.1 with h3 | h3
          · have : isNLLine (c :: x) = true := by
              rcases x with _ | ⟨a, as⟩
              · exact absurd rfl hx.2
              · simp [isNLLine, hc, h3]
            simp [this]
          · have : noNL (c :: x) = true := by
              rw [noNL_cons, h3]
              simp [hc]
            simp [this]
        · exact ih (by rw [h]; exact List.mem_cons_of_mem x h2)

theorem readlines_of_noNL : ∀ {l : PyStr}, l ≠ [] → noNL l = true → readlines l = [l]
  | [], h, _ => absurd rfl h
  | [c], _, h => by
    have hc : ¬ c = '\n' := by simpa [noNL] using h
    simp [readlines, hc]
  | c :: d :: rest, _, h => by
    have hc : ¬ c = '\n' := by
      have := (Bool.and_eq_true _ _).mp (by rwa [noNL_cons] at h)
      simpa using this.1
    have hrest : noNL (d :: rest) = true := by
      have := (Bool.and_eq_true _ _).mp (by rwa [noNL_cons] at h)
      exact this.2
    have ih := readlines_of_noNL (l := d :: rest) (by simp) hrest
    exact readlines_cons_of_ne hc ih

theorem isNLLine_getLast : ∀ {l : PyStr}, isNLLine l = true → l.getLast? = some '\n'
  | [], h => by simp [isNLLine] at h
  | [c], h => by
    have : c = '\n' := by simpa [isNLLine] using h
    subst this
    rfl
  | c :: d :: rest, h => by
    have hp : ¬ c = '\n' ∧ isNLLine (d :: rest) = true := by
      simpa [isNLLine, Bool.and_eq_true] using h
    rw [List.getLast?_cons_cons]
    exact isNLLine_getLast hp.2

theorem isNLLine_dropLast_noNL : ∀ {l : PyStr}, isNLLine l = true → noNL l.dropLast = true
  | [], h => by simp [isNLLine] at h
  | [c], _ => by simp [noNL]
  | c :: d :: rest, h => by
    have hp : ¬ c = '\n' ∧ isNLLine (d :: rest) = true := by
      simpa [isNLLine, Bool.and_eq_true] using h
    have hd : (c :: d :: rest).dropLast = c :: (d :: rest).dropLast := rfl
    rw [hd, noNL_cons, isNLLine_dropLast_noNL hp.2]
    simp [hp.1]

theorem stripNL_of_noNL {l : PyStr} (h : noNL l = true) : stripNL l = l := by
  unfold stripNL
  rcases hg : l.getLast? with _ | a
  · simp
  · have ha : a ∈ l := by
      rcases List.mem_getLast?_eq_getLast (Option.mem_def.mpr hg) with ⟨hne, heq⟩
      rw [heq]
      exact List.getLast_mem hne
    have hne : ¬ a = '\n' := by
      have := List.all_eq_true.mp h a ha
      simpa using this
    by_cases hx : a = '\n'
    · exact absurd hx hne
    · simp [hg, hx]

theorem noNL_stripNL {l : PyStr} (h : (isNLLine l || noNL l) = true) :
    noNL (stripNL l) = true := by
  rcases Bool.or_eq_true_iff.mp h with h1 | h1
  · unfold stripNL
    rw [isNLLine_getLast h1]
    simp [isNLLine_dropLast_noNL h1]
  · rw [stripNL_of_noNL h1]
    exact h1

theorem noNL_of_mem_splitlines {s l : PyStr} (h : l ∈ splitlines s) : noNL l = true := by
  unfold splitlines at h
  rcases List.mem_map.mp h with ⟨x, hx, hxe⟩
  subst hxe
  exact noNL_stripNL (lineOK_of_mem_readlines hx).1

theorem countLines_eq_readlines_length (s : PyStr) : countLines s = (readlines s).length := by
  simp [countLines, splitlines, List.length_map]

theorem isNLLine_append_nl : ∀ {p : PyStr}, noNL p = true → isNLLine (p ++ ['\n']) = true
  | [], _ => by decide
  | c :: rest, h => by
    have hp := (Bool.and_eq_true _ _).mp (by rwa [noNL_cons] at h)
    have hc : ¬ c = '\n' := by simpa using hp.1
    have ih := isNLLine_append_nl hp.2
    rcases rest with _ | ⟨d, r⟩
    · show isNLLine [c, '\n'] = true
      simp [isNLLine, hc]
    · show isNLLine (c :: ((d :: r) ++ ['\n'])) = true
      rw [show (d :: r) ++ ['\n'] = d :: (r ++ ['\n']) from rfl] at ih ⊢
      simp [isNLLine, hc, ih]

theorem readlines_truncMarker :
    readlines truncMarker = [['\n'], "... (content truncated)".toList] := by
  rw [show truncMarker = '\n' :: "... (content truncated)".toList from rfl]
  rw [show readlines ('\n' :: "... (content truncated)".toList)
        = ['\n'] :: readlines "... (content truncated)".toList from by simp [readlines]]
  rw [readlines_of_noNL (by decide) (by decide)]

theorem flatten_take_length_le (L : List PyStr) (k : Nat) :
    (L.take k).flatten.length ≤ L.flatten.length := by
  conv_rhs => rw [← List.take_append_drop k L]
  rw [List.flatten_append, List.length_append]
  omega

theorem previewFromLines_length_le (lines : List PyStr) :
    (previewFromLines lines).length ≤ MAX_CONTENT_PREVIEW_CHARS + truncMarker.length := by
  unfold previewFromLines
  by_cases h1 : lines.flatten.length > MAX_CONTENT_PREVIEW_CHARS
  · rw [if_pos h1, List.length_append, List.length_take]
    omega
  · rw [if_neg h1]
    by_cases h2 : lines.length > MAX_CONTENT_PREVIEW_LINES
    · rw [if_pos h2, List.length_append]
      have := flatten_take_length_le lines MAX_CONTENT_PREVIEW_LINES
      omega
    · rw [if_neg h2]
      omega

theorem previewFromLines_eq_of_fits {lines : List PyStr}
    (h1 : lines.flatten.length ≤ MAX_CONTENT_PREVIEW_CHARS)
    (h2 : lines.length ≤ MAX_CONTENT_PREVIEW_LINES) :
    previewFromLines lines = lines.flatten := by
  unfold previewFromLines
  rw [if_neg (by omega), if_neg (by omega)]

theorem countLines_previewFromLines_le {content : PyStr}
    (h : content.length ≤ MAX_CONTENT_PREVIEW_CHARS) :
    countLines (previewFromLines (readlines content)) ≤ MAX_CONTENT_PREVIEW_LINES + 2 := by
  have hflat : (readlines content).flatten = content := readlines_flatten content
  unfold previewFromLines
  rw [if_neg (by rw [hflat]; omega)]
  by_cases h2 : (readlines content).length > MAX_CONTENT_PREVIEW_LINES
  · rw [if_pos h2]
    have hall : ∀ l ∈ (readlines content).take MAX_CONTENT_PREVIEW_LINES, isNLLine l = true :=
      isNLLine_of_mem_take (readlines_nlShape content) (by omega)
    rw [countLines_eq_readlines_length, readlines_flatten_append hall truncMarker,
      readlines_truncMarker, List.length_append, List.length_take]
    have hm : ([['\n'], ("... (content truncated)".toList : PyStr)] : List PyStr).length = 2 := rfl
    rw [hm]
    omega
  · rw [if_neg h2, hflat, countLines_eq_readlines_length]
    omega

theorem capTitle_length_le (cap : Nat) (s : PyStr) : (capTitle cap s).length ≤ cap + 3 := by
  unfold capTitle
  by_cases h : s.length > cap
  · rw [if_pos h, List.length_append, List.length_take]
    have : ("...".toList : PyStr).length = 3 := by decide
    omega
  · rw [if_neg h]
    omega

theorem intercalate_nl_append : ∀ {L : List PyStr}, L ≠ [] → ∀ T,
    List.intercalate ['\n'] L ++ '\n' :: T = (L.map fun l => l ++ ['\n']).flatten ++ T
  | [], h, _ => absurd rfl h
  | [l], _, T => by simp [List.intercalate, List.intersperse]
  | l :: d :: rest, _, T => by
    have ih := intercalate_nl_append (L := d :: rest) (by simp) T
    have h1 : List.intercalate ['\n'] (l :: d :: rest)
        = l ++ '\n' :: List.intercalate ['\n'] (d :: rest) := by
      simp [List.intercalate, List.intersperse_cons_cons]
    calc List.intercalate ['\n'] (l :: d :: rest) ++ '\n' :: T
        = l ++ '\n' :: (List.intercalate ['\n'] (d :: rest) ++ '\n' :: T) := by
          rw [h1]; simp
      _ = l ++ '\n' :: (((d :: rest).map fun x => x ++ ['\n']).flatten ++ T) := by rw [ih]
      _ = ((l :: d :: rest).map fun x => x ++ ['\n']).flatten ++ T := by simp

theorem countLines_docxPreview_le {paras : List Para}
    (h : (docxFullText paras).length ≤ MAX_CONTENT_PREVIEW_CHARS) :
    countLines (docxPreview paras) ≤ MAX_CONTENT_PREVIEW_LINES + 2 := by
  unfold docxPreview
  rw [if_neg (by omega)]
  by_cases h2 : (splitlines (docxFullText paras)).length > MAX_CONTENT_PREVIEW_LINES
  · rw [if_pos h2]
    have hPne : (splitlines (docxFullText paras)).take MAX_CONTENT_PREVIEW_LINES ≠ [] := by
      intro hx
      have := congrArg List.length hx
      rw [List.length_take] at this
      simp only [List.length_nil] at this
      have : MAX_CONTENT_PREVIEW_LINES = 0 ∨ (splitlines (docxFullText paras)).length = 0 := by
        omega
      rcases this with h3 | h3
      · exact absurd h3 (by decide)
      · omega
    rw [show truncMarker = '\n' :: "... (content truncated)".toList from rfl,
      intercalate_nl_append hPne _]
    have hall : ∀ x ∈ ((splitlines (docxFullText paras)).take
        MAX_CONTENT_PREVIEW_LINES).map fun l => l ++ ['\n'], isNLLine x = true := by
      intro x hx
      rcases List.mem_map.mp hx with ⟨p, hp, hpe⟩
      subst hpe
      have hpn : noNL p = true :=
        noNL_of_mem_splitlines (List.mem_of_mem_take hp)
      exact isNLLine_append_nl hpn
    rw [countLines_eq_readlines_length, readlines_flatten_append hall _,
      readlines_of_noNL (by decide) (by decide), List.length_append, List.length_map,
      List.length_take]
    have hm : ([("... (content truncated)".toList : PyStr)] : List PyStr).length = 1 := rfl
    rw [hm]
    omega
  · rw [if_neg h2]
    show (splitlines (docxFullText paras)).length ≤ MAX_CONTENT_PREVIEW_LINES + 2
    omega

/-! Lemmas about the collector and the reference enumeration. -/

theorem mkPath_nil (root f : PyStr) : mkPath root [] f = childPath root f := rfl

theorem mkPath_cons (root n f : PyStr) (ds : List PyStr) :
    mkPath root (n :: ds) f = mkPath (childPath root n) ds f := rfl

theorem mem_filesAt {p x : PyStr} {cs : List FSNode} :
    x ∈ filesAt p cs ↔ ∃ n, FSNode.file n ∈ cs ∧ x = childPath p n := by
  unfold filesAt
  rw [List.mem_filterMap]
  constructor
  · rintro ⟨c, hc, he⟩
    cases c with
    | file n =>
      refine ⟨n, hc, ?_⟩
      simp only [Option.some.injEq] at he
      exact he.symm
    | dir n dn ccs => simp at he
  · rintro ⟨n, hn, he⟩
    exact ⟨FSNode.file n, hn, by simp [he]⟩

theorem dirWalks_nil (p : PyStr) : dirWalks p [] = [] := by
  simp [dirWalks]

theorem dirWalks_cons_file (p n : PyStr) (rest : List FSNode) :
    dirWalks p (FSNode.file n :: rest) = dirWalks p rest := by
  simp [dirWalks]

theorem dirWalks_cons_dir (p n : PyStr) (dn : Bool) (ccs rest : List FSNode) :
    dirWalks p (FSNode.dir n dn ccs :: rest)
      = (if EXCLUDE_FOLDERS.contains n then []
         else if dn then [] else walkChildren (childPath p n) ccs) ++ dirWalks p rest := by
  simp [dirWalks]

theorem mem_dirWalks {p x : PyStr} {cs : List FSNode} :
    x ∈ dirWalks p cs ↔
      ∃ n dn ccs, FSNode.dir n dn ccs ∈ cs ∧ EXCLUDE_FOLDERS.contains n = false
        ∧ dn = false ∧ x ∈ walkChildren (childPath p n) ccs := by
  induction cs with
  | nil =>
    rw [dirWalks_nil]
    simp
  | cons c rest ih =>
    cases c with
    | file m =>
      rw [dirWalks_cons_file]
      rw [ih]
      constructor
      · rintro ⟨n, dn, ccs, hmem, h1, h2, h3⟩
        exact ⟨n, dn, ccs, List.mem_cons_of_mem _ hmem, h1, h2, h3⟩
      · rintro ⟨n, dn, ccs, hmem, h1, h2, h3⟩
        rcases List.mem_cons.mp hmem with heq | hmem2
        · cases heq
        · exact ⟨n, dn, ccs, hmem2, h1, h2, h3⟩
    | dir m dm cbs =>
      rw [dirWalks_cons_dir, List.mem_append, ih]
      constructor
      · rintro (hin | ⟨n, dn, ccs, hmem, h1, h2, h3⟩)
        · by_cases hex : EXCLUDE_FOLDERS.contains m
          · rw [if_pos hex] at hin
            simp at hin
          · rw [if_neg hex] at hin
            by_cases hdm : dm = true
            · rw [if_pos hdm] at hin
              simp at hin
            · rw [if_neg hdm] at hin
              exact ⟨m, dm, cbs, List.mem_cons_self _ _,
                Bool.eq_false_iff.mpr hex, Bool.eq_false_iff.mpr hdm, hin⟩
        · exact ⟨n, dn, ccs, List.mem_cons_of_mem _ hmem, h1, h2, h3⟩
      · rintro ⟨n, dn, ccs, hmem, h1, h2, h3⟩
        rcases List.mem_cons.mp hmem with heq | hmem2
        · injection heq with e1 e2 e3
          subst e1; subst e2; subst e3
          left
          rw [if_neg (by rw [h1]; exact Bool.false_ne_true), if_neg (by rw [h2]; exact Bool.false_ne_true)]
          exact h3
        · exact Or.inr ⟨n, dn, ccs, hmem2, h1, h2, h3⟩

theorem listEntries_nil : listEntries [] = [] := rfl

theorem listEntries_cons (c : FSNode) (rest : List FSNode) :
    listEntries (c :: rest) = nodeEntries c ++ listEntries rest := rfl

theorem mem_listEntries {cs : List FSNode} {e : List PyStr × PyStr} :
    e ∈ listEntries cs ↔
      (∃ n, FSNode.file n ∈ cs ∧ e = ([], n)) ∨
      (∃ n dn ccs e2, FSNode.dir n dn ccs ∈ cs ∧ e2 ∈ listEntries ccs
        ∧ e = (n :: e2.1, e2.2)) := by
  induction cs with
  | nil => simp [listEntries_nil]
  | cons c rest ih =>
    rw [listEntries_cons, List.mem_append, ih]
    cases c with
    | file m =>
      constructor
      · rintro (hin | (⟨n, hn, he⟩ | ⟨n, dn, ccs, e2, hmem, he2, he⟩))
        · left
          refine ⟨m, List.mem_cons_self _ _, ?_⟩
          simpa [nodeEntries] using hin
        · exact Or.inl ⟨n, List.mem_cons_of_mem _ hn, he⟩
        · exact Or.inr ⟨n, dn, ccs, e2, List.mem_cons_of_mem _ hmem, he2, he⟩
      · rintro (⟨n, hn, he⟩ | ⟨n, dn, ccs, e2, hmem, he2, he⟩)
        · rcases List.mem_cons.mp hn with heq | hn2
          · injection heq with e1
            subst e1
            left
            simp [nodeEntries, he]
          · exact Or.inr (Or.inl ⟨n, hn2, he⟩)
        · rcases List.mem_cons.mp hmem with heq | hm2
          · cases heq
          · exact Or.inr (Or.inr ⟨n, dn, ccs, e2, hm2, he2, he⟩)
    | dir m dm cbs =>
      constructor
      · rintro (hin | (⟨n, hn, he⟩ | ⟨n, dn, ccs, e2, hmem, he2, he⟩))
        · right
          rw [show nodeEntries (FSNode.dir m dm cbs)
                = (listEntries cbs).map (fun e => (m :: e.1, e.2)) from rfl] at hin
          rcases List.mem_map.mp hin with ⟨e2, he2, hee⟩
          exact ⟨m, dm, cbs, e2, List.mem_cons_self _ _, he2, hee.symm⟩
        · exact Or.inl ⟨n, List.mem_cons_of_mem _ hn, he⟩
        · exact Or.inr ⟨n, dn, ccs, e2, List.mem_cons_of_mem _ hmem, he2, he⟩
      · rintro (⟨n, hn, he⟩ | ⟨n, dn, ccs, e2, hmem, he2, he⟩)
        · rcases List.mem_cons.mp hn with heq | hn2
          · cases heq
          · exact Or.inr (Or.inl ⟨n, hn2, he⟩)
        · rcases List.mem_cons.mp hmem with heq | hm2
          · injection heq with e1 e2x e3
            left
            rw [show nodeEntries (FSNode.dir m dm cbs)
                  = (listEntries cbs).map (fun e => (m :: e.1, e.2)) from rfl]
            refine List.mem_map.mpr ⟨e2, ?_, ?_⟩
            · rw [← e3]; exact he2
            · show (m :: e2.1, e2.2) = e
              rw [he, e1]
          · exact Or.inr (Or.inr ⟨n, dn, ccs, e2, hm2, he2, he⟩)

theorem accessibleList_cons_file (n : PyStr) (rest : List FSNode) :
    accessibleList (FSNode.file n :: rest) = accessibleList rest := rfl

theorem accessibleList_cons_dir (n : PyStr) (dn : Bool) (ccs rest : List FSNode) :
    accessibleList (FSNode.dir n dn ccs :: rest)
      = (!dn && accessibleList ccs && accessibleList rest) := rfl

theorem accessible_of_dir_mem : ∀ {cs : List FSNode} {n : PyStr} {dn : Bool} {ccs : List FSNode},
    accessibleList cs = true → FSNode.dir n dn ccs ∈ cs →
    dn = false ∧ accessibleList ccs = true := by
  intro cs
  induction cs with
  | nil => intro n dn ccs _ h; cases h
  | cons c rest ih =>
    intro n dn ccs hacc hmem
    rcases List.mem_cons.mp hmem with heq | hmem2
    · subst heq
      rw [accessibleList_cons_dir] at hacc
      rcases (Bool.and_eq_true _ _).mp hacc with ⟨h1, _⟩
      rcases (Bool.and_eq_true _ _).mp h1 with ⟨h2, h3⟩
      exact ⟨by simpa using h2, h3⟩
    · cases c with
      | file m =>
        rw [accessibleList_cons_file] at hacc
        exact ih hacc hmem2
      | dir m dm cbs =>
        rw [accessibleList_cons_dir] at hacc
        rcases (Bool.and_eq_true _ _).mp hacc with ⟨_, h2⟩
        exact ih h2 hmem2

theorem walkChildren_mem_iff (cs : List FSNode) (hacc : accessibleList cs = true)
    (base x : PyStr) : x ∈ walkChildren base cs ↔
      ∃ e ∈ listEntries cs, (∀ d ∈ e.1, EXCLUDE_FOLDERS.contains d = false)
        ∧ x = mkPath base e.1 e.2 := by
  rw [show walkChildren base cs = filesAt base cs ++ dirWalks base cs from by
    simp [walkChildren]]
  rw [List.mem_append, mem_filesAt, mem_dirWalks]
  constructor
  · rintro (⟨n, hn, he⟩ | ⟨n, dn, ccs, hmem, hex, hdn, hin⟩)
    · refine ⟨([], n), mem_listEntries.mpr (Or.inl ⟨n, hn, rfl⟩), ?_, ?_⟩
      · intro d hd; simp at hd
      · rw [mkPath_nil]; exact he
    · have hsub := accessible_of_dir_mem hacc hmem
      have ih := walkChildren_mem_iff ccs hsub.2 (childPath base n) x
      rcases ih.mp hin with ⟨e2, he2, hnoex, hpath⟩
      refine ⟨(n :: e2.1, e2.2),
        mem_listEntries.mpr (Or.inr ⟨n, dn, ccs, e2, hmem, he2, rfl⟩), ?_, ?_⟩
      · intro d hd
        rcases List.mem_cons.mp hd with h | h
        · subst h; exact hex
        · exact hnoex d h
      · rw [mkPath_cons]; exact hpath
  · rintro ⟨e, he, hnoex, hpath⟩
    rcases mem_listEntries.mp he with ⟨n, hn, heq⟩ | ⟨n, dn, ccs, e2, hmem, he2, heq⟩
    · subst heq
      left
      refine ⟨n, hn, ?_⟩
      rw [hpath, mkPath_nil]
    · subst heq
      right
      have hsub := accessible_of_dir_mem hacc hmem
      have ih := walkChildren_mem_iff ccs hsub.2 (childPath base n) x
      refine ⟨n, dn, ccs, hmem, hnoex n (List.mem_cons_self _ _), hsub.1, ?_⟩
      refine ih.mpr ⟨e2, he2, ?_, ?_⟩
      · intro d hd; exact hnoex d (List.mem_cons_of_mem _ hd)
      · rw [hpath, mkPath_cons]
termination_by listSize cs
decreasing_by
all_goals exact listSize_lt_of_dir_mem hmem

/-! Lemmas about the tree renderer. -/

theorem genItems_nil (pfx : PyStr) : genItems [] pfx = [] := by
  simp [genItems]

theorem genItems_singleton (x : FSNode) (pfx : PyStr) :
    genItems [x] pfx = renderOne x true pfx := by
  simp [genItems]

theorem genItems_cons2 (x y : FSNode) (rest : List FSNode) (pfx : PyStr) :
    genItems (x :: y :: rest) pfx = renderOne x false pfx ++ genItems (y :: rest) pfx := by
  simp [genItems]

theorem renderOne_file (n : PyStr) (last : Bool) (pfx : PyStr) :
    renderOne (.file n) last pfx = [pfx ++ (if last then lastConn else branchConn) ++ n] := by
  simp [renderOne]

theorem renderOne_dir (n : PyStr) (dn : Bool) (ccs : List FSNode) (last : Bool) (pfx : PyStr) :
    renderOne (.dir n dn ccs) last pfx
      = (pfx ++ (if last then lastConn else branchConn) ++ n ++ ['/']) ::
          subTree dn ccs (pfx ++ (if last then "    ".toList else "│   ".toList)) := by
  simp [renderOne]

theorem subTree_denied (ccs : List FSNode) (pfx : PyStr) :
    subTree true ccs pfx = [pfx ++ deniedLine] := by
  simp [subTree]

theorem subTree_ok (ccs : List FSNode) (pfx : PyStr) :
    subTree false ccs pfx = genItems (treeItems ccs) pfx := by
  simp [subTree]

theorem file_mem_treeItems {n : PyStr} {cs : List FSNode} (h : FSNode.file n ∈ cs) :
    FSNode.file n ∈ treeItems cs := by
  unfold treeItems
  rw [(List.perm_insertionSort nodeLe _).mem_iff, List.mem_append]
  right
  rw [List.mem_filter]
  exact ⟨h, rfl⟩

theorem file_line_mem_genItems : ∀ {items : List FSNode} {n : PyStr},
    FSNode.file n ∈ items → ∀ pfx : PyStr, ∃ conn, (conn = branchConn ∨ conn = lastConn)
      ∧ (pfx ++ conn ++ n) ∈ genItems items pfx := by
  intro items
  induction items with
  | nil => intro n h; cases h
  | cons x rest ih =>
    intro n hmem pfx
    rcases rest with _ | ⟨y, r⟩
    · have heq : FSNode.file n = x := List.mem_singleton.mp hmem
      rw [genItems_singleton, ← heq, renderOne_file]
      exact ⟨lastConn, Or.inr rfl, by simp⟩
    · rw [genItems_cons2]
      rcases List.mem_cons.mp hmem with heq | hmem2
      · rw [← heq, renderOne_file]
        exact ⟨branchConn, Or.inl rfl, by simp⟩
      · rcases ih hmem2 pfx with ⟨conn, hc, hin⟩
        exact ⟨conn, hc, List.mem_append.mpr (Or.inr hin)⟩

/-! Branch-selection lemmas for the extractor. -/

theorem get_txt_ok {f : FileInput} (hext : pyLower (pySuffix f.name) = ".txt".toList)
    {content : PyStr} (hread : f.readResult = .ok content) (dav : Bool) :
    get_file_title_and_content f dav = txtExtract content := by
  simp only [get_file_title_and_content]
  rw [if_pos hext, hread]

theorem get_txt_err {f : FileInput} (hext : pyLower (pySuffix f.name) = ".txt".toList)
    {e : PyErr} (hread : f.readResult = .error e) (dav : Bool) :
    get_file_title_and_content f dav = errorResult f.name e := by
  simp only [get_file_title_and_content]
  rw [if_pos hext, hread]

theorem get_docx_ok {f : FileInput} (hext : pyLower (pySuffix f.name) = ".docx".toList)
    {paras : List Para} (hparse : f.docxResult = .ok paras) :
    get_file_title_and_content f true = docxExtract paras := by
  simp only [get_file_title_and_content]
  rw [if_neg (by rw [hext]; decide), if_pos ⟨hext, by trivial⟩, hparse]

theorem get_docx_err {f : FileInput} (hext : pyLower (pySuffix f.name) = ".docx".toList)
    {e : PyErr} (hparse : f.docxResult = .error e) :
    get_file_title_and_content f true = errorResult f.name e := by
  simp only [get_file_title_and_content]
  rw [if_neg (by rw [hext]; decide), if_pos ⟨hext, by trivial⟩, hparse]

/-- The dispatch falls through to the final `else` (the unknown-extension
text-read fallback). -/
def takesFallback (f : FileInput) (dav : Bool) : Prop :=
  pyLower (pySuffix f.name) ≠ ".txt".toList
  ∧ ¬ (pyLower (pySuffix f.name) = ".docx".toList ∧ dav = true)
  ∧ notImplementedExts.contains (pyLower (pySuffix f.name)) = false
  ∧ binaryExts.contains (pyLower (pySuffix f.name)) = false

instance (f : FileInput) (dav : Bool) : Decidable (takesFallback f dav) := by
  unfold takesFallback
  infer_instance

theorem get_fallback {f : FileInput} {dav : Bool} (h : takesFallback f dav) :
    get_file_title_and_content f dav
      = unknownFallback (pyLower (pySuffix f.name)) f.readResult := by
  simp only [get_file_title_and_content]
  rw [if_neg h.1, if_neg h.2.1,
    if_neg (by rw [h.2.2.1]; exact Bool.false_ne_true),
    if_neg (by rw [h.2.2.2]; exact Bool.false_ne_true)]

theorem get_notImpl {f : FileInput} {dav : Bool}
    (h1 : pyLower (pySuffix f.name) ≠ ".txt".toList)
    (h2 : ¬ (pyLower (pySuffix f.name) = ".docx".toList ∧ dav = true))
    (h3 : notImplementedExts.contains (pyLower (pySuffix f.name)) = true) :
    get_file_title_and_content f dav
      = ⟨none, [],
         "[Content extraction for ".toList ++ pyLower (pySuffix f.name)
           ++ " not yet implemented, but file is present.]".toList⟩ := by
  simp only [get_file_title_and_content]
  rw [if_neg h1, if_neg h2, if_pos h3]

theorem get_binary {f : FileInput} {dav : Bool}
    (h1 : pyLower (pySuffix f.name) ≠ ".txt".toList)
    (h2 : ¬ (pyLower (pySuffix f.name) = ".docx".toList ∧ dav = true))
    (h3 : notImplementedExts.contains (pyLower (pySuffix f.name)) = false)
    (h4 : binaryExts.contains (pyLower (pySuffix f.name)) = true) :
    get_file_title_and_content f dav
      = ⟨none, [],
         "[Binary, media, archive, or shortcut file (".toList ++ pyLower (pySuffix f.name)
           ++ "). Content not displayed.]".toList⟩ := by
  simp only [get_file_title_and_content]
  rw [if_neg h1, if_neg h2, if_neg (by rw [h3]; exact Bool.false_ne_true), if_pos h4]

theorem unknownFallback_title (ext : PyStr) (r : Except PyErr PyStr) :
    (unknownFallback ext r).title = none := by
  rcases r with e | content
  · rfl
  · simp only [unknownFallback]
    by_cases h : (readlines content).isEmpty
    · rw [if_pos h]
    · rw [if_neg h]
      by_cases h2 : (pyStrip (previewFromLines (readlines content))).isEmpty
      · simp [h2]
      · simp [h2]

theorem unknownFallback_preview_ok (ext content : PyStr) :
    (unknownFallback ext (.ok content)).content_preview
      = if (readlines content).isEmpty then [] else previewFromLines (readlines content) := by
  simp only [unknownFallback]
  by_cases h : (readlines content).isEmpty
  · rw [if_pos h, if_pos h]
  · rw [if_neg h, if_neg h]
    by_cases h2 : (pyStrip (previewFromLines (readlines content))).isEmpty
    · simp [h2]
    · simp [h2]

theorem txtExtract_preview (content : PyStr) :
    (txtExtract content).content_preview
      = if (readlines content).isEmpty then [] else previewFromLines (readlines content) := by
  unfold txtExtract
  by_cases h : (readlines content).isEmpty
  · rw [if_pos h, if_pos h]
  · rw [if_neg h, if_neg h]

/-! Claim theorems. -/

/-- C8: an empty file with extension `.txt` yields `title = None`,
`preview = ""` and `notes = "[Empty text file]"`. -/
theorem C8_empty_txt (name : PyStr) (dres : Except PyErr (List Para)) (dav : Bool)
    (hext : pyLower (pySuffix name) = ".txt".toList) :
    get_file_title_and_content ⟨name, .ok [], dres⟩ dav
      = ⟨none, [], "[Empty text file]".toList⟩ := by
  rw [get_txt_ok hext rfl dav]
  rfl

theorem C8_empty_txt_witness :
    get_file_title_and_content ⟨"a.txt".toList, .ok [], .ok []⟩ true
      = ⟨none, [], "[Empty text file]".toList⟩ :=
  C8_empty_txt "a.txt".toList (.ok []) true (by decide)

/-- The `.docx` case in which no heading paragraph is found, so the title
falls back to the first non-blank paragraph capped at 150 characters. -/
def docxNoHeadings (f : FileInput) (dav : Bool) : Prop :=
  pyLower (pySuffix f.name) = ".docx".toList ∧ dav = true
    ∧ ∀ paras, f.docxResult = .ok paras → headingTitles paras = []

/-- C10: whenever the extractor returns a title, it has at most 203
characters (the 200 cap plus the 3-character ellipsis), and in the docx
first-non-blank-paragraph fallback at most 153 characters. -/
theorem C10_title_caps (f : FileInput) (dav : Bool) (t : PyStr)
    (ht : (get_file_title_and_content f dav).title = some t) :
    t.length ≤ 203 ∧ (docxNoHeadings f dav → t.length ≤ 153) := by
  by_cases htxt : pyLower (pySuffix f.name) = ".txt".toList
  · rcases hr : f.readResult with e | content
    · rw [get_txt_err htxt hr dav] at ht
      simp [errorResult] at ht
    · rw [get_txt_ok htxt hr dav] at ht
      simp only [txtExtract] at ht
      by_cases hemp : (readlines content).isEmpty
      · rw [if_pos hemp] at ht
        simp at ht
      · rw [if_neg hemp] at ht
        simp only [] at ht
        rcases Option.map_eq_some'.mp ht with ⟨l, _, hcap⟩
        constructor
        · rw [← hcap]
          have := capTitle_length_le 200 (pyStrip l)
          omega
        · intro hd
          exfalso
          have hx := hd.1
          rw [htxt] at hx
          exact absurd hx (by decide)
  · by_cases hdocx : pyLower (pySuffix f.name) = ".docx".toList ∧ dav = true
    · rcases hdocx with ⟨hde, hdav⟩
      subst hdav
      rcases hp : f.docxResult with e | paras
      · rw [get_docx_err hde hp] at ht
        simp [errorResult] at ht
      · rw [get_docx_ok hde hp] at ht
        have htt : docxTitle paras = some t := ht
        simp only [docxTitle] at htt
        by_cases hts : (headingTitles paras).isEmpty
        · rw [if_neg (by rw [hts]; decide)] at htt
          rcases hf : List.find? (fun p => !(pyStrip p.text).isEmpty) paras with _ | p
          · rw [hf] at htt
            simp at htt
          · rw [hf] at htt
            simp only [Option.some.injEq] at htt
            have hle : t.length ≤ 153 := by
              rw [← htt]
              by_cases hlen : (pyStrip p.text).length > 150
              · rw [if_pos hlen, List.length_append, List.length_take]
                have h3 : ("...".toList : PyStr).length = 3 := by decide
                omega
              · rw [if_neg hlen]
                omega
            exact ⟨by omega, fun _ => hle⟩
        · rw [if_pos (by rw [show (headingTitles paras).isEmpty = false from
              Bool.eq_false_iff.mpr hts]; decide)] at htt
          simp only [Option.some.injEq] at htt
          constructor
          · rw [← htt]
            have := capTitle_length_le 200
              (List.intercalate "; ".toList ((headingTitles paras).take 3))
            omega
          · intro hd
            exfalso
            have := hd.2.2 paras hp
            rw [this] at hts
            exact hts (by decide)
    · by_cases hni : notImplementedExts.contains (pyLower (pySuffix f.name)) = true
      · rw [get_notImpl htxt hdocx hni] at ht
        simp at ht
      · by_cases hbin : binaryExts.contains (pyLower (pySuffix f.name)) = true
        · rw [get_binary htxt hdocx (Bool.eq_false_iff.mpr hni) hbin] at ht
          simp at ht
        · rw [get_fallback ⟨htxt, hdocx, Bool.eq_false_iff.mpr hni,
            Bool.eq_false_iff.mpr hbin⟩] at ht
          rw [unknownFallback_title] at ht
          simp at ht

theorem C10_title_caps_witness :
    ("hi".toList : PyStr).length ≤ 203
      ∧ (docxNoHeadings ⟨"a.txt".toList, .ok "hi".toList, .ok []⟩ true →
         ("hi".toList : PyStr).length ≤ 153) :=
  C10_title_caps ⟨"a.txt".toList, .ok "hi".toList, .ok []⟩ true "hi".toList (by decide)

/-- C3: on the plain-text path and the unknown-extension fallback path, the
preview never exceeds the character cap plus the truncation marker, and when
neither the character cap nor the line cap is exceeded, the preview is
exactly the full file content. -/
theorem C3_preview_bounds (f : FileInput) (dav : Bool) (content : PyStr)
    (hread : f.readResult = .ok content)
    (hpath : pyLower (pySuffix f.name) = ".txt".toList ∨ takesFallback f dav) :
    (get_file_title_and_content f dav).content_preview.length
        ≤ MAX_CONTENT_PREVIEW_CHARS + truncMarker.length
      ∧ (content.length ≤ MAX_CONTENT_PREVIEW_CHARS →
         (readlines content).length ≤ MAX_CONTENT_PREVIEW_LINES →
         (get_file_title_and_content f dav).content_preview = content) := by
  have hprev : (get_file_title_and_content f dav).content_preview
      = if (readlines content).isEmpty then [] else previewFromLines (readlines content) := by
    rcases hpath with htxt | hfb
    · rw [get_txt_ok htxt hread dav, txtExtract_preview]
    · rw [get_fallback hfb, hread, unknownFallback_preview_ok]
  constructor
  · rw [hprev]
    by_cases h : (readlines content).isEmpty
    · rw [if_pos h]
      exact Nat.zero_le _
    · rw [if_neg h]
      exact previewFromLines_length_le _
  · intro h1 h2
    rw [hprev]
    by_cases h : (readlines content).isEmpty
    · rw [if_pos h]
      have hf := readlines_flatten content
      rw [List.isEmpty_iff.mp h] at hf
      simpa using hf.symm
    · rw [if_neg h,
        previewFromLines_eq_of_fits (by rw [readlines_flatten]; exact h1) h2,
        readlines_flatten]

theorem C3_preview_bounds_witness :
    (get_file_title_and_content ⟨"a.txt".toList, .ok "hello".toList, .ok []⟩
        true).content_preview.length ≤ MAX_CONTENT_PREVIEW_CHARS + truncMarker.length
      ∧ (("hello".toList : PyStr).length ≤ MAX_CONTENT_PREVIEW_CHARS →
         (readlines "hello".toList).length ≤ MAX_CONTENT_PREVIEW_LINES →
         (get_file_title_and_content ⟨"a.txt".toList, .ok "hello".toList, .ok []⟩
            true).content_preview = "hello".toList) :=
  C3_preview_bounds ⟨"a.txt".toList, .ok "hello".toList, .ok []⟩ true "hello".toList rfl
    (Or.inl (by decide))

/-- A 51-line text file, each line `"x\n"` (102 characters in total). -/
def c4file : FileInput :=
  ⟨"a.txt".toList, .ok (List.replicate 51 "x\n".toList).flatten, .ok []⟩

/-- C4 counterexample: for this 51-line `.txt` file the character cap did not
trigger (102 ≤ 2000 characters), yet the returned preview has 52 lines —
more than the 50-line cap — because the appended truncation marker
contributes a blank line and the marker line. -/
theorem C4_counterexample :
    ((List.replicate 51 ("x\n".toList : PyStr)).flatten).length ≤ MAX_CONTENT_PREVIEW_CHARS
      ∧ countLines ((get_file_title_and_content c4file true).content_preview)
          = MAX_CONTENT_PREVIEW_LINES + 2
      ∧ MAX_CONTENT_PREVIEW_LINES
          < countLines ((get_file_title_and_content c4file true).content_preview) := by
  decide

/-- No character-cap truncation can occur for this input: any successfully
read text content and any successfully parsed docx full text fit within the
character cap. -/
def charCapNotHit (f : FileInput) : Prop :=
  (∀ content, f.readResult = .ok content → content.length ≤ MAX_CONTENT_PREVIEW_CHARS)
  ∧ (∀ paras, f.docxResult = .ok paras →
      (docxFullText paras).length ≤ MAX_CONTENT_PREVIEW_CHARS)

/-- C4 amended: unless the character cap triggered truncation first, the
preview's line count is at most the line cap plus 2 (the appended truncation
marker adds a blank line and the marker text line). -/
theorem C4_line_cap_amended (f : FileInput) (dav : Bool) (h : charCapNotHit f) :
    countLines ((get_file_title_and_content f dav).content_preview)
      ≤ MAX_CONTENT_PREVIEW_LINES + 2 := by
  by_cases htxt : pyLower (pySuffix f.name) = ".txt".toList
  · rcases hr : f.readResult with e | content
    · rw [get_txt_err htxt hr dav]
      show countLines [] ≤ MAX_CONTENT_PREVIEW_LINES + 2
      decide
    · rw [get_txt_ok htxt hr dav, txtExtract_preview]
      by_cases hemp : (readlines content).isEmpty
      · rw [if_pos hemp]
        show countLines [] ≤ MAX_CONTENT_PREVIEW_LINES + 2
        decide
      · rw [if_neg hemp]
        exact countLines_previewFromLines_le (h.1 content hr)
  · by_cases hdocx : pyLower (pySuffix f.name) = ".docx".toList ∧ dav = true
    · rcases hdocx with ⟨hde, hdav⟩
      subst hdav
      rcases hp : f.docxResult with e | paras
      · rw [get_docx_err hde hp]
        show countLines [] ≤ MAX_CONTENT_PREVIEW_LINES + 2
        decide
      · rw [get_docx_ok hde hp]
        show countLines (docxPreview paras) ≤ MAX_CONTENT_PREVIEW_LINES + 2
        exact countLines_docxPreview_le (h.2 paras hp)
    · by_cases hni : notImplementedExts.contains (pyLower (pySuffix f.name)) = true
      · rw [get_notImpl htxt hdocx hni]
        show countLines [] ≤ MAX_CONTENT_PREVIEW_LINES + 2
        decide
      · by_cases hbin : binaryExts.contains (pyLower (pySuffix f.name)) = true
        · rw [get_binary htxt hdocx (Bool.eq_false_iff.mpr hni) hbin]
          show countLines [] ≤ MAX_CONTENT_PREVIEW_LINES + 2
          decide
        · rw [get_fallback ⟨htxt, hdocx, Bool.eq_false_iff.mpr hni,
            Bool.eq_false_iff.mpr hbin⟩]
          rcases hr : f.readResult with e | content
          · show countLines [] ≤ MAX_CONTENT_PREVIEW_LINES + 2
            decide
          · rw [unknownFallback_preview_ok]
            by_cases hemp : (readlines content).isEmpty
            · rw [if_pos hemp]
              show countLines [] ≤ MAX_CONTENT_PREVIEW_LINES + 2
              decide
            · rw [if_neg hemp]
              exact countLines_previewFromLines_le (h.1 content hr)

theorem C4_line_cap_amended_witness :
    countLines ((get_file_title_and_content
        ⟨"a.txt".toList, .ok "hi\n".toList, .ok []⟩ true).content_preview)
      ≤ MAX_CONTENT_PREVIEW_LINES + 2 :=
  C4_line_cap_amended ⟨"a.txt".toList, .ok "hi\n".toList, .ok []⟩ true
    ⟨fun content hc => by
        injection hc with h2
        rw [← h2]
        decide,
     fun paras hp => by
        injection hp with h2
        rw [← h2]
        decide⟩

/-- A `.txt` file whose read raises `OSError("boom")`. -/
def c5txt : FileInput := ⟨"a.txt".toList, .error ⟨"OSError".toList, "boom".toList⟩, .ok []⟩

/-- An unknown-extension file whose read raises `OSError("boom")`. -/
def c5unk : FileInput := ⟨"b.xyz".toList, .error ⟨"OSError".toList, "boom".toList⟩, .ok []⟩

/-- C5 counterexample: the notes string the outer handler produces is WRAPPED
in square brackets, not the bare `"ERROR processing file <name>: <kind> -
<detail>"` form the claim quotes; and a failing read in the
unknown-extension fallback never reaches the outer handler at all — it is
caught locally and noted as an Unknown-file-type message, not an ERROR
message. -/
theorem C5_counterexample :
    get_file_title_and_content c5txt true
        = ⟨none, [], "[ERROR processing file a.txt: OSError - boom]".toList⟩
      ∧ (get_file_title_and_content c5txt true).content_notes
          ≠ "ERROR processing file a.txt: OSError - boom".toList
      ∧ (get_file_title_and_content c5unk true).content_notes
          = "[Unknown file type (.xyz), likely binary or not text-readable]".toList := by
  decide

/-- C5 amended: the extractor is a total function (it never raises). A read
failure in the `.txt` branch or a parse failure in the `.docx` branch is
caught by the outer handler, which returns title `None`, an empty preview,
and the bracketed notes string `"[ERROR processing file <name>: <kind> -
<detail>]"`; a read failure in the unknown-extension fallback is caught by
that branch's inner handler instead, producing the
`"[Unknown file type (<ext>), likely binary or not text-readable]"` note
(also with title `None` and empty preview). -/
theorem C5_error_handling_amended (f : FileInput) (dav : Bool) (e : PyErr) :
    (pyLower (pySuffix f.name) = ".txt".toList → f.readResult = .error e →
      get_file_title_and_content f dav
        = ⟨none, [], "[ERROR processing file ".toList ++ f.name ++ ": ".toList
            ++ e.kind ++ " - ".toList ++ e.detail ++ "]".toList⟩)
    ∧ (pyLower (pySuffix f.name) = ".docx".toList → dav = true → f.docxResult = .error e →
      get_file_title_and_content f dav
        = ⟨none, [], "[ERROR processing file ".toList ++ f.name ++ ": ".toList
            ++ e.kind ++ " - ".toList ++ e.detail ++ "]".toList⟩)
    ∧ (takesFallback f dav → f.readResult = .error e →
      get_file_title_and_content f dav
        = ⟨none, [], "[Unknown file type (".toList ++ pyLower (pySuffix f.name)
            ++ "), likely binary or not text-readable]".toList⟩) := by
  refine ⟨?_, ?_, ?_⟩
  · intro hext hread
    rw [get_txt_err hext hread dav]
    rfl
  · intro hext hdav hparse
    subst hdav
    rw [get_docx_err hext hparse]
    rfl
  · intro hfb hread
    rw [get_fallback hfb, hread]
    rfl

theorem C5_error_handling_amended_witness :
    (get_file_title_and_content c5txt true
        = ⟨none, [], "[ERROR processing file ".toList ++ "a.txt".toList ++ ": ".toList
            ++ "OSError".toList ++ " - ".toList ++ "boom".toList ++ "]".toList⟩)
      ∧ (get_file_title_and_content
            ⟨"c.docx".toList, .ok [], .error ⟨"KeyError".toList, "bad".toList⟩⟩ true
          = ⟨none, [], "[ERROR processing file ".toList ++ "c.docx".toList ++ ": ".toList
              ++ "KeyError".toList ++ " - ".toList ++ "bad".toList ++ "]".toList⟩)
      ∧ (get_file_title_and_content c5unk true
          = ⟨none, [], "[Unknown file type (".toList ++ pyLower (pySuffix "b.xyz".toList)
              ++ "), likely binary or not text-readable]".toList⟩) :=
  ⟨(C5_error_handling_amended c5txt true ⟨"OSError".toList, "boom".toList⟩).1 (by decide) rfl,
   (C5_error_handling_amended
      ⟨"c.docx".toList, .ok [], .error ⟨"KeyError".toList, "bad".toList⟩⟩ true
      ⟨"KeyError".toList, "bad".toList⟩).2.1 (by decide) rfl rfl,
   (C5_error_handling_amended c5unk true ⟨"OSError".toList, "boom".toList⟩).2.2
     (by decide) rfl⟩

/-- C6 counterexample: with the docx dependency unavailable, a readable
`.docx` file gets the unknown-extension fallback's "[Attempted text
extraction ...]" note, not the category-4 "not yet implemented" note; indeed
`.docx` is not in the category-4 extension list at all. -/
theorem C6_counterexample :
    (get_file_title_and_content
        ⟨"a.docx".toList, .ok "hello".toList, .ok []⟩ false).content_notes
        = "[Attempted text extraction for unknown type .docx]".toList
      ∧ (get_file_title_and_content
          ⟨"a.docx".toList, .ok "hello".toList, .ok []⟩ false).content_notes
        ≠ "[Content extraction for .docx not yet implemented, but file is present.]".toList
      ∧ notImplementedExts.contains ".docx".toList = false := by
  decide

/-- C6 amended: when the docx dependency is unavailable at startup (detected
once at import time, modelled as `docAvailable = false`), the docx branch is
skipped and every `.docx` file falls through to category 5 — the
unknown-extension text-read fallback — a deterministic per-file behavior. -/
theorem C6_docx_fallback_amended (f : FileInput)
    (hext : pyLower (pySuffix f.name) = ".docx".toList) :
    get_file_title_and_content f false
      = unknownFallback (pyLower (pySuffix f.name)) f.readResult := by
  apply get_fallback
  refine ⟨?_, ?_, ?_, ?_⟩
  · rw [hext]; decide
  · rintro ⟨_, hh⟩
    exact Bool.noConfusion hh
  · rw [hext]; decide
  · rw [hext]; decide

theorem C6_docx_fallback_amended_witness :
    get_file_title_and_content ⟨"a.docx".toList, .ok "hello".toList, .ok []⟩ false
      = unknownFallback (pyLower (pySuffix "a.docx".toList)) (Except.ok "hello".toList) :=
  C6_docx_fallback_amended ⟨"a.docx".toList, .ok "hello".toList, .ok []⟩ (by decide)

/-- The sibling listing used by the C1 counterexample: one subdirectory `b`
and one file `a`. -/
def c1cs : List FSNode := [FSNode.dir "b".toList false [], FSNode.file "a".toList]

/-- C1 counterexample: `_tree_generator` computes
`sorted(dirs_not_excluded + files)` — a single merged alphabetical sort — so
for a directory containing the file `a` and the subdirectory `b` the file is
rendered first, whereas the claimed directories-first ordering would render
`b/` first. -/
theorem C1_counterexample :
    treeItems c1cs = [FSNode.file "a".toList, FSNode.dir "b".toList false []]
      ∧ dirsFirstItems c1cs = [FSNode.dir "b".toList false [], FSNode.file "a".toList]
      ∧ treeItems c1cs ≠ dirsFirstItems c1cs
      ∧ genItems (treeItems c1cs) [] = ["├── a".toList, "└── b/".toList] := by
  refine ⟨rfl, rfl, ?_, ?_⟩
  · intro h
    rw [show treeItems c1cs = [FSNode.file "a".toList, FSNode.dir "b".toList false []]
        from rfl,
      show dirsFirstItems c1cs = [FSNode.dir "b".toList false [], FSNode.file "a".toList]
        from rfl] at h
    injection h with h1 _
    exact FSNode.noConfusion h1
  · rw [show treeItems c1cs = [FSNode.file "a".toList, FSNode.dir "b".toList false []]
        from rfl]
    rw [genItems_cons2, genItems_singleton, renderOne_file, renderOne_dir]
    rw [subTree_ok, show treeItems [] = [] from rfl, genItems_nil]
    decide

/-- C1 amended: within one rendering pass the children of a directory are
ordered by one single stable merged sort by name of the non-excluded
subdirectories and the files together: `treeItems` is sorted by the sibling
name order, is a permutation of the filtered concatenation, and contains
only non-excluded directories and files. -/
theorem C1_merged_order_amended (cs : List FSNode) :
    List.Sorted nodeLe (treeItems cs)
      ∧ (treeItems cs).Perm (cs.filter includedDir ++ cs.filter isFileNode)
      ∧ ∀ x ∈ treeItems cs, (includedDir x || isFileNode x) = true := by
  refine ⟨List.sorted_insertionSort nodeLe _, List.perm_insertionSort nodeLe _, ?_⟩
  intro x hx
  have hx2 : x ∈ cs.filter includedDir ++ cs.filter isFileNode :=
    (List.perm_insertionSort nodeLe _).subset hx
  rcases List.mem_append.mp hx2 with h | h
  · rw [(List.mem_filter.mp h).2]
    rfl
  · rw [(List.mem_filter.mp h).2]
    simp

/-- C2: the flat list returned by the collector contains exactly the files
reachable from the root whose relative path has no excluded directory-name
component (file names themselves are never filtered), and it is sorted
ascending by full path string. `listEntries` enumerates every file of the
tree with its directory components, without any pruning. -/
theorem C2_collector (rootPath : PyStr) (cs : List FSNode)
    (hacc : accessibleList cs = true) :
    (∀ x : PyStr, x ∈ scan_folder_and_collect_files rootPath cs ↔
        ∃ e ∈ listEntries cs, (∀ d ∈ e.1, EXCLUDE_FOLDERS.contains d = false)
          ∧ x = mkPath rootPath e.1 e.2)
      ∧ List.Sorted pyStrLe (scan_folder_and_collect_files rootPath cs) := by
  constructor
  · intro x
    unfold scan_folder_and_collect_files
    rw [(List.perm_insertionSort pyStrLe _).mem_iff]
    exact walkChildren_mem_iff cs hacc rootPath x
  · exact List.sorted_insertionSort pyStrLe _

/-- The root listing of the spec's worked example: `a/b.txt` and
`a/temp/c.txt` where `temp` is an excluded folder name. -/
def c2cs : List FSNode :=
  [FSNode.dir "a".toList false
     [FSNode.file "b.txt".toList,
      FSNode.dir "temp".toList false [FSNode.file "c.txt".toList]]]

theorem C2_collector_witness :
    accessibleList c2cs = true
      ∧ ("/r/a/b.txt".toList ∈ scan_folder_and_collect_files "/r".toList c2cs ↔
          ∃ e ∈ listEntries c2cs, (∀ d ∈ e.1, EXCLUDE_FOLDERS.contains d = false)
            ∧ "/r/a/b.txt".toList = mkPath "/r".toList e.1 e.2) :=
  ⟨by decide, (C2_collector "/r".toList c2cs (by decide)).1 "/r/a/b.txt".toList⟩

/-- C7: a `PermissionError` while listing a directory is rendered as exactly
one child line (the denied message under that directory's own line), and the
remaining siblings are rendered exactly as they otherwise would be — the
traversal is not aborted. -/
theorem C7_permission_denied (pfx n : PyStr) (ccs rest : List FSNode) :
    subTree true ccs pfx = [pfx ++ deniedLine]
      ∧ (rest ≠ [] → genItems (FSNode.dir n true ccs :: rest) pfx
          = (pfx ++ branchConn ++ n ++ ['/'])
              :: ((pfx ++ "│   ".toList) ++ deniedLine) :: genItems rest pfx)
      ∧ genItems [FSNode.dir n true ccs] pfx
          = [pfx ++ lastConn ++ n ++ ['/'], (pfx ++ "    ".toList) ++ deniedLine] := by
  refine ⟨subTree_denied ccs pfx, ?_, ?_⟩
  · intro hne
    rcases rest with _ | ⟨y, r⟩
    · exact absurd rfl hne
    · rw [genItems_cons2, renderOne_dir, subTree_denied]
      simp
  · rw [genItems_singleton, renderOne_dir, subTree_denied]
    simp

theorem C7_permission_denied_witness :
    ([FSNode.file "z".toList] : List FSNode) ≠ []
      ∧ genItems [FSNode.dir "sub".toList true [], FSNode.file "z".toList] []
        = (([] : PyStr) ++ branchConn ++ "sub".toList ++ ['/'])
            :: ((([] : PyStr) ++ "│   ".toList) ++ deniedLine)
            :: genItems [FSNode.file "z".toList] [] :=
  ⟨by simp,
   (C7_permission_denied [] "sub".toList [] [FSNode.file "z".toList]).2.1 (by simp)⟩

/-- C9: exclusion prunes only directory entries. A regular file whose name
is in `EXCLUDE_FOLDERS` is still returned by the collector (when it is a
child of the root) and still rendered by the tree renderer. -/
theorem C9_files_not_excluded (rootPath n pfx : PyStr) (cs : List FSNode)
    (hmem : FSNode.file n ∈ cs) (hexcl : EXCLUDE_FOLDERS.contains n = true) :
    childPath rootPath n ∈ scan_folder_and_collect_files rootPath cs
      ∧ ∃ conn, (conn = branchConn ∨ conn = lastConn)
          ∧ (pfx ++ conn ++ n) ∈ genItems (treeItems cs) pfx := by
  constructor
  · unfold scan_folder_and_collect_files
    rw [(List.perm_insertionSort pyStrLe _).mem_iff]
    rw [show walkChildren rootPath cs = filesAt rootPath cs ++ dirWalks rootPath cs from by
      simp [walkChildren]]
    exact List.mem_append.mpr (Or.inl (mem_filesAt.mpr ⟨n, hmem, rfl⟩))
  · exact file_line_mem_genItems (file_mem_treeItems hmem) pfx

theorem C9_files_not_excluded_witness :
    childPath "/r".toList ".git".toList
        ∈ scan_folder_and_collect_files "/r".toList [FSNode.file ".git".toList]
      ∧ ∃ conn, (conn = branchConn ∨ conn = lastConn)
          ∧ (([] : PyStr) ++ conn ++ ".git".toList)
              ∈ genItems (treeItems [FSNode.file ".git".toList]) [] :=
  C9_files_not_excluded "/r".toList ".git".toList [] [FSNode.file ".git".toList]
    (List.mem_singleton.mpr rfl) (by decide)
